import Mathlib

/-!
Shallow embedding of `src/graphs/p1_layering/rank.rs` from the
rust-sugiyama repository: the `Ranks` store (vertex → rank mapping plus a
shared `minimum_length` constant) and its operations `new`/`is_valid`,
`slack`, `update`, `tighten_edge`, `normalize`, `into_layers`, and the
`Index` implementation.

Modelling choices:
* `NodeIndex` (petgraph's opaque vertex handle) is modelled as `Nat`.
* The `HashMap<NodeIndex, isize>` is modelled as an association list
  `List (NodeIndex × Int)`; the HashMap guarantee that keys are unique is
  carried as a `Nodup` hypothesis where a theorem needs it.
* `usize`/`isize` are modelled as `Nat`/`Int` (no operation here can
  overflow observably; casts `as isize` become `Int.ofNat`).
* Rust panics (`assert!`, `unwrap()` on `None`) are modelled by `Option`:
  `none` is the panic.
* The graph argument is only consulted for its vertex identifiers
  (`graph.node_indices()`), so it is modelled as the list of those
  identifiers.
-/

namespace RustSugiyama

/-- petgraph's `NodeIndex`: an opaque, stable vertex handle, modelled as a
natural number. -/
abbrev NodeIndex := Nat

/-- Modelled from the spec: `TightTreeDFSs` (module `p1_layering::tree`,
whose source is not available) holds the set of vertices discovered by the
tight-tree traversal; `vertices()` returns that set. Being a discovered
vertex set, it contains no duplicates. -/
structure TightTreeDFSs where
  vertices : List NodeIndex
  nodup : vertices.Nodup

/-- Modelled from the spec: a `Layers` value (module `util::layers`, whose
source is not available) is an ordered sequence of vertex groups indexed by
rank; its constructor `Layers::new` wraps the group sequence built by
`into_layers`. -/
structure Layers where
  layers : List (List NodeIndex)
deriving DecidableEq

/-- The `Ranks` store of `rank.rs`: the vertex → rank mapping `_inner`
plus the shared `minimum_length` constant. -/
structure Ranks where
  _inner : List (NodeIndex × Int)
  minimum_length : Nat
deriving DecidableEq

namespace Ranks

/-- `HashMap::get` on the `_inner` mapping: the rank stored for `v`, or
`none` when `v` is absent. -/
def get (r : Ranks) (v : NodeIndex) : Option Int :=
  (r._inner.find? (fun p => p.1 == v)).map Prod.snd

/-- The key set of the `_inner` mapping (as a list; the HashMap has each
key once). -/
def keys (r : Ranks) : List NodeIndex :=
  r._inner.map Prod.fst

/-- `Ranks::is_valid`: walks the graph's vertices and returns `false` as
soon as one is missing from the mapping, `true` otherwise. -/
def is_valid (ranks : List (NodeIndex × Int)) (graph : List NodeIndex) : Bool :=
  graph.all (fun v => ranks.any (fun p => p.1 == v))

/-- `Ranks::new`: asserts `is_valid` (panic modelled as `none`), then
builds the store. -/
def new (ranks : List (NodeIndex × Int)) (graph : List NodeIndex)
    (minimum_length : Nat) : Option Ranks :=
  if is_valid ranks graph then some ⟨ranks, minimum_length⟩ else none

/-- `Ranks::slack`: `rank(head) - rank(tail) - minimum_length as isize`;
panics (`none`) when either vertex is absent from the mapping. -/
def slack (r : Ranks) (tail head : NodeIndex) : Option Int :=
  match r.get head, r.get tail with
  | some rh, some rt => some (rh - rt - (r.minimum_length : Int))
  | _, _ => none

/-- The `Index<NodeIndex>` implementation: `_inner.get(&index).unwrap()`;
panics (`none`) when the vertex is absent. -/
def index (r : Ranks) (i : NodeIndex) : Option Int :=
  r.get i

/-- `Ranks::update`: `entry(vertex).and_modify(|rank| *rank += delta)` —
adds `delta` to the entry with key `vertex` when present, inserts
nothing. -/
def update (r : Ranks) (vertex : NodeIndex) (delta : Int) : Ranks :=
  ⟨r._inner.map (fun p => if p.1 == vertex then (p.1, p.2 + delta) else p),
   r.minimum_length⟩

/-- `Ranks::tighten_edge`: applies `update(v, delta)` to every vertex of
the tree. -/
def tighten_edge (r : Ranks) (tree : TightTreeDFSs) (delta : Int) : Ranks :=
  tree.vertices.foldl (fun acc v => acc.update v delta) r

/-- The minimum of a list of ranks, as computed by
`iter().min_by(|(_, a), (_, b)| a.cmp(b))`: `none` exactly on the empty
collection. -/
def listMin : List Int → Option Int
  | [] => none
  | x :: xs =>
    match listMin xs with
    | none => some x
    | some m => some (min x m)

/-- `Ranks::normalize`: subtracts the minimum rank from every rank; the
`unwrap()` on the minimum of an empty mapping panics (`none`). -/
def normalize (r : Ranks) : Option Ranks :=
  match listMin (r._inner.map Prod.snd) with
  | none => none
  | some m => some ⟨r._inner.map (fun p => (p.1, p.2 - m)), r.minimum_length⟩

/-- One step of the `into_layers` loop body: grow `layers` with empty
groups while `layers.len() <= layer`, then push `vertex` onto
`layers[layer]`. -/
def pushAt (layers : List (List NodeIndex)) (layer : Nat) (vertex : NodeIndex) :
    List (List NodeIndex) :=
  let g := layers ++ List.replicate (layer + 1 - layers.length) []
  g.set layer (g.getD layer [] ++ [vertex])

/-- `Ranks::into_layers`: normalizes defensively (propagating its panic),
then distributes every `(vertex, layer)` entry of the mapping into
`layers[layer as usize]`, growing the sequence with empty groups as
needed, and wraps the result in `Layers::new`. After `normalize` every
rank is non-negative, so `layer as usize` is `Int.toNat`. -/
def into_layers (r : Ranks) : Option Layers :=
  match r.normalize with
  | none => none
  | some r' =>
    some ⟨r'._inner.foldl (fun layers p => pushAt layers p.2.toNat p.1) []⟩

/-! ### Helper lemmas about lookup and update -/

theorem get_isSome_iff (r : Ranks) (v : NodeIndex) :
    (r.get v).isSome = true ↔ v ∈ r.keys := by
  unfold Ranks.get Ranks.keys
  rw [Option.isSome_map', List.find?_isSome]
  simp only [List.mem_map, beq_iff_eq]

theorem find?_map_fst_preserving (l : List (NodeIndex × Int))
    (f : NodeIndex × Int → NodeIndex × Int) (hf : ∀ p, (f p).1 = p.1)
    (u : NodeIndex) :
    (l.map f).find? (fun p => p.1 == u) =
      (l.find? (fun p => p.1 == u)).map f := by
  rw [List.find?_map]
  have hfun : ((fun p : NodeIndex × Int => p.1 == u) ∘ f) =
      (fun p : NodeIndex × Int => p.1 == u) := by
    funext p
    simp [Function.comp, hf]
  rw [hfun]

theorem get_update_self (r : Ranks) (vertex : NodeIndex) (delta : Int) (x : Int)
    (h : r.get vertex = some x) :
    (r.update vertex delta).get vertex = some (x + delta) := by
  simp only [Ranks.get, Ranks.update] at h ⊢
  rw [find?_map_fst_preserving _ _ (fun p => by cases hb : (p.1 == vertex) <;> simp [hb])]
  obtain ⟨e, he, hx⟩ := Option.map_eq_some'.mp h
  have h1 := List.find?_some he
  simp only [beq_iff_eq] at h1
  rw [he]
  simp [h1, hx]

theorem get_update_ne (r : Ranks) (vertex u : NodeIndex) (delta : Int)
    (h : u ≠ vertex) :
    (r.update vertex delta).get u = r.get u := by
  simp only [Ranks.get, Ranks.update]
  rw [find?_map_fst_preserving _ _ (fun p => by cases hb : (p.1 == vertex) <;> simp [hb])]
  cases hf : r._inner.find? (fun p => p.1 == u) with
  | none => rfl
  | some e =>
    have h1 := List.find?_some hf
    simp only [beq_iff_eq] at h1
    simp [h1, h]

theorem update_absent_eq (r : Ranks) (vertex : NodeIndex) (delta : Int)
    (h : r.get vertex = none) :
    r.update vertex delta = r := by
  obtain ⟨inner, ml⟩ := r
  simp only [Ranks.get, Option.map_eq_none'] at h
  have hall : ∀ p ∈ inner, (p.1 == vertex) = false := by
    intro p hp
    simpa using List.find?_eq_none.mp h p hp
  simp only [Ranks.update, Ranks.mk.injEq, and_true]
  calc inner.map (fun p => if p.1 == vertex then (p.1, p.2 + delta) else p)
      = inner.map id := List.map_congr_left (fun p hp => by simp [hall p hp])
    _ = inner := List.map_id inner

/-! ### Helper lemmas about key sets -/

theorem keys_update (r : Ranks) (vertex : NodeIndex) (delta : Int) :
    (r.update vertex delta).keys = r.keys := by
  simp only [Ranks.keys, Ranks.update, List.map_map]
  exact List.map_congr_left (fun p _ => by simp only [Function.comp]; split <;> rfl)

theorem keys_foldl_update (l : List NodeIndex) (delta : Int) :
    ∀ r : Ranks, (l.foldl (fun acc v => acc.update v delta) r).keys = r.keys := by
  induction l with
  | nil => intro r; rfl
  | cons v vs ih => intro r; rw [List.foldl_cons, ih, keys_update]

theorem keys_tighten_edge (r : Ranks) (tree : TightTreeDFSs) (delta : Int) :
    (r.tighten_edge tree delta).keys = r.keys :=
  keys_foldl_update tree.vertices delta r

theorem keys_normalize (r r' : Ranks) (h : r.normalize = some r') :
    r'.keys = r.keys := by
  unfold Ranks.normalize at h
  cases hm : Ranks.listMin (r._inner.map Prod.snd) with
  | none => rw [hm] at h; cases h
  | some m =>
    rw [hm] at h
    obtain rfl := (Option.some.injEq _ _).mp h
    simp [Ranks.keys, List.map_map, Function.comp]

/-! ### Helper lemmas about the minimum of the rank values -/

theorem listMin_eq_none_iff (l : List Int) : listMin l = none ↔ l = [] := by
  cases l with
  | nil => simp [Ranks.listMin]
  | cons x xs =>
    unfold Ranks.listMin
    cases listMin xs <;> simp

theorem listMin_mem (l : List Int) (m : Int) (h : listMin l = some m) : m ∈ l := by
  induction l generalizing m with
  | nil => cases h
  | cons x xs ih =>
    unfold Ranks.listMin at h
    cases hx : listMin xs with
    | none =>
      rw [hx] at h
      injection h with h'
      exact h' ▸ List.mem_cons_self x xs
    | some m' =>
      rw [hx] at h
      injection h with h'
      rcases min_cases x m' with ⟨hval, _⟩ | ⟨hval, _⟩
      · rw [← h', hval]
        exact List.mem_cons_self x xs
      · rw [← h', hval]
        exact List.mem_cons_of_mem x (ih m' hx)

theorem listMin_le (l : List Int) (m : Int) (h : listMin l = some m) :
    ∀ x ∈ l, m ≤ x := by
  induction l generalizing m with
  | nil => cases h
  | cons x xs ih =>
    intro y hy
    unfold Ranks.listMin at h
    cases hx : listMin xs with
    | none =>
      rw [hx] at h
      injection h with h'
      rw [listMin_eq_none_iff] at hx
      subst hx
      have h3 := List.mem_singleton.mp hy
      rw [h3, ← h']
    | some m' =>
      rw [hx] at h
      injection h with h'
      rcases List.mem_cons.mp hy with h3 | hmem
      · rw [h3, ← h']
        exact min_le_left x m'
      · rw [← h']
        exact le_trans (min_le_right x m') (ih m' hx y hmem)

theorem listMin_eq_some_of_mem_of_le (l : List Int) (m : Int) (hm : m ∈ l)
    (hle : ∀ x ∈ l, m ≤ x) : listMin l = some m := by
  cases hmin : listMin l with
  | none =>
    rw [listMin_eq_none_iff] at hmin
    subst hmin
    cases hm
  | some m' =>
    have h2 : m' ≤ m := listMin_le l m' hmin m hm
    have h3 : m ≤ m' := hle m' (listMin_mem l m' hmin)
    rw [le_antisymm h2 h3]

/-! ### Helper lemmas about normalize and the empty store -/

theorem normalize_empty (r : Ranks) (h : r._inner = []) : r.normalize = none := by
  unfold Ranks.normalize
  rw [h]
  rfl

theorem into_layers_empty (r : Ranks) (h : r._inner = []) :
    r.into_layers = none := by
  unfold Ranks.into_layers
  rw [normalize_empty r h]

theorem normalize_aux (r : Ranks) (h : r._inner ≠ []) :
    ∃ m r', listMin (r._inner.map Prod.snd) = some m ∧
      r.normalize = some r' ∧
      r'._inner = r._inner.map (fun p => (p.1, p.2 - m)) ∧
      r'.minimum_length = r.minimum_length ∧
      listMin (r'._inner.map Prod.snd) = some 0 ∧
      (∀ v x, r.get v = some x → r'.get v = some (x - m)) := by
  cases hm : listMin (r._inner.map Prod.snd) with
  | none =>
    rw [listMin_eq_none_iff, List.map_eq_nil_iff] at hm
    exact absurd hm h
  | some m =>
    refine ⟨m, ⟨r._inner.map (fun p => (p.1, p.2 - m)), r.minimum_length⟩,
      rfl, ?_, rfl, rfl, ?_, ?_⟩
    · unfold Ranks.normalize
      rw [hm]
    · apply listMin_eq_some_of_mem_of_le
      · have hmem : m ∈ r._inner.map Prod.snd := listMin_mem _ m hm
        simp only [List.map_map, List.mem_map, Function.comp] at hmem ⊢
        obtain ⟨p, hp, hpm⟩ := hmem
        exact ⟨p, hp, by rw [hpm]; ring⟩
      · intro x hx
        simp only [List.map_map, List.mem_map, Function.comp] at hx
        obtain ⟨p, hp, hpx⟩ := hx
        have := listMin_le _ m hm p.2 (List.mem_map.mpr ⟨p, hp, rfl⟩)
        omega
    · intro v x hx
      simp only [Ranks.get] at hx ⊢
      rw [find?_map_fst_preserving r._inner (fun p => (p.1, p.2 - m)) (fun p => rfl) v]
      obtain ⟨e, he, hex⟩ := Option.map_eq_some'.mp hx
      rw [he]
      simp [hex]

/-! ### Helper lemmas about folding update over a vertex list -/

theorem get_foldl_update_not_mem (l : List NodeIndex) (delta : Int) (u : NodeIndex)
    (hu : u ∉ l) :
    ∀ r : Ranks, (l.foldl (fun acc v => acc.update v delta) r).get u = r.get u := by
  induction l with
  | nil => intro r; rfl
  | cons v vs ih =>
    intro r
    rw [List.foldl_cons, ih (fun h => hu (List.mem_cons_of_mem _ h)),
      get_update_ne _ _ _ _ (fun h => hu (by rw [h]; exact List.mem_cons_self _ _))]

theorem get_foldl_update_mem (l : List NodeIndex) (delta : Int) (u : NodeIndex) :
    l.Nodup → u ∈ l → ∀ (r : Ranks) (x : Int), r.get u = some x →
      (l.foldl (fun acc v => acc.update v delta) r).get u = some (x + delta) := by
  induction l with
  | nil => intro _ hu; cases hu
  | cons v vs ih =>
    intro hl hu r x hx
    rw [List.foldl_cons]
    rcases List.mem_cons.mp hu with h3 | hmem
    · subst h3
      rw [get_foldl_update_not_mem vs delta u (List.nodup_cons.mp hl).1]
      exact get_update_self r u delta x hx
    · have hne : u ≠ v := fun h => (List.nodup_cons.mp hl).1 (h ▸ hmem)
      exact ih (List.nodup_cons.mp hl).2 hmem _ x
        (by rw [get_update_ne r v u delta hne]; exact hx)

/-! ### Helper lemmas about pushAt and the into_layers fold -/

theorem getD_append_replicate_nil (L : List (List NodeIndex)) (n j : Nat) :
    (L ++ List.replicate n ([] : List NodeIndex)).getD j [] = L.getD j [] := by
  rcases lt_or_le j L.length with hj | hj
  · rw [List.getD_eq_getElem?_getD, List.getD_eq_getElem?_getD,
      List.getElem?_append_left hj]
  · rw [List.getD_eq_getElem?_getD, List.getD_eq_getElem?_getD,
      List.getElem?_append_right hj, List.getElem?_replicate]
    have h2 : L[j]? = none := List.getElem?_eq_none hj
    rw [h2]
    split <;> rfl

theorem length_pushAt (L : List (List NodeIndex)) (i : Nat) (v : NodeIndex) :
    (pushAt L i v).length = max L.length (i + 1) := by
  unfold Ranks.pushAt
  rw [List.length_set, List.length_append, List.length_replicate]
  omega

theorem getD_pushAt (L : List (List NodeIndex)) (i : Nat) (v : NodeIndex)
    (j : Nat) :
    (pushAt L i v).getD j [] =
      if j = i then L.getD i [] ++ [v] else L.getD j [] := by
  unfold Ranks.pushAt
  have hlen : i < (L ++ List.replicate (i + 1 - L.length) ([] : List NodeIndex)).length := by
    rw [List.length_append, List.length_replicate]
    omega
  split
  · rename_i hj
    subst hj
    rw [List.getD_eq_getElem?_getD, List.getElem?_set_self hlen]
    simp only [Option.getD_some]
    rw [getD_append_replicate_nil]
  · rename_i hj
    rw [List.getD_eq_getElem?_getD, List.getElem?_set_ne (fun h => hj h.symm),
      ← List.getD_eq_getElem?_getD, getD_append_replicate_nil]

theorem mem_getD_foldl_pushAt (l : List (NodeIndex × Int)) :
    ∀ (acc : List (List NodeIndex)) (j : Nat) (w : NodeIndex),
      w ∈ (l.foldl (fun layers p => pushAt layers p.2.toNat p.1) acc).getD j [] ↔
        w ∈ acc.getD j [] ∨ ∃ x, (w, x) ∈ l ∧ x.toNat = j := by
  induction l with
  | nil => simp
  | cons p ps ih =>
    intro acc j w
    rw [List.foldl_cons, ih]
    rw [getD_pushAt]
    constructor
    · rintro (hmem | ⟨x, hx, hxj⟩)
      · split at hmem
        · rename_i hj
          rcases List.mem_append.mp hmem with hmem | hmem
          · exact Or.inl (by rw [hj]; exact hmem)
          · rcases List.mem_singleton.mp hmem with rfl
            exact Or.inr ⟨p.2, by rw [Prod.mk.eta]; exact List.mem_cons_self p ps, hj.symm⟩
        · exact Or.inl hmem
      · exact Or.inr ⟨x, List.mem_cons_of_mem p hx, hxj⟩
    · rintro (hmem | ⟨x, hx, hxj⟩)
      · split
        · rename_i hj
          exact Or.inl (List.mem_append.mpr (Or.inl (by rw [← hj]; exact hmem)))
        · exact Or.inl hmem
      · rcases List.mem_cons.mp hx with h3 | h3
        · have hw : w = p.1 := by rw [← h3]
          have hx2 : x = p.2 := by rw [← h3]
          subst hw
          subst hx2
          rw [hxj]
          simp only [if_pos rfl]
          exact Or.inl (List.mem_append.mpr (Or.inr (List.mem_singleton.mpr rfl)))
        · exact Or.inr ⟨x, h3, hxj⟩

theorem lt_length_foldl_pushAt (l : List (NodeIndex × Int)) :
    ∀ (acc : List (List NodeIndex)) (j : Nat),
      j < (l.foldl (fun layers p => pushAt layers p.2.toNat p.1) acc).length ↔
        j < acc.length ∨ ∃ p ∈ l, j < p.2.toNat + 1 := by
  induction l with
  | nil => simp
  | cons p ps ih =>
    intro acc j
    rw [List.foldl_cons, ih, length_pushAt]
    constructor
    · rintro (hlt | ⟨q, hq, hjq⟩)
      · rcases lt_max_iff.mp hlt with h3 | h3
        · exact Or.inl h3
        · exact Or.inr ⟨p, List.mem_cons_self p ps, h3⟩
      · exact Or.inr ⟨q, List.mem_cons_of_mem p hq, hjq⟩
    · rintro (hlt | ⟨q, hq, hjq⟩)
      · exact Or.inl (lt_max_iff.mpr (Or.inl hlt))
      · rcases List.mem_cons.mp hq with h3 | h3
        · exact Or.inl (lt_max_iff.mpr (Or.inr (by rw [← h3]; exact hjq)))
        · exact Or.inr ⟨q, h3, hjq⟩

theorem nodup_append_singleton (l : List NodeIndex) (a : NodeIndex)
    (h1 : l.Nodup) (h2 : a ∉ l) : (l ++ [a]).Nodup := by
  rw [List.nodup_append]
  refine ⟨h1, List.nodup_singleton a, ?_⟩
  intro x hx hxa
  rcases List.mem_singleton.mp hxa with rfl
  exact h2 hx

theorem nodup_getD_foldl_pushAt (l : List (NodeIndex × Int)) :
    ∀ acc : List (List NodeIndex), (l.map Prod.fst).Nodup →
      (∀ j, (acc.getD j []).Nodup) →
      (∀ j w, w ∈ acc.getD j [] → w ∉ l.map Prod.fst) →
      ∀ j, ((l.foldl (fun layers p => pushAt layers p.2.toNat p.1) acc).getD j []).Nodup := by
  induction l with
  | nil =>
    intro acc _ hacc _ j
    exact hacc j
  | cons p ps ih =>
    intro acc hnd hacc hdisj j
    rw [List.foldl_cons]
    have hnd' : (ps.map Prod.fst).Nodup := (List.nodup_cons.mp (by simpa using hnd)).2
    have hhead : p.1 ∉ ps.map Prod.fst := (List.nodup_cons.mp (by simpa using hnd)).1
    refine ih _ hnd' ?_ ?_ j
    · intro j'
      rw [getD_pushAt]
      split
      · have h1 : p.1 ∉ acc.getD p.2.toNat [] := fun hmem =>
          hdisj _ p.1 hmem (by simp)
        exact nodup_append_singleton _ _ (hacc p.2.toNat) h1
      · exact hacc j'
    · intro j' w hw
      rw [getD_pushAt] at hw
      split at hw
      · rcases List.mem_append.mp hw with hw' | hw'
        · exact fun hmem => hdisj _ w hw' (List.mem_cons_of_mem _ hmem)
        · rcases List.mem_singleton.mp hw' with rfl
          exact hhead
      · exact fun hmem => hdisj _ w hw (List.mem_cons_of_mem _ hmem)

theorem eq_of_mem_of_nodup_keys :
    ∀ (l : List (NodeIndex × Int)), (l.map Prod.fst).Nodup →
      ∀ p q : NodeIndex × Int, p ∈ l → q ∈ l → p.1 = q.1 → p = q := by
  intro l
  induction l with
  | nil => intro _ p q hp; cases hp
  | cons a as ih =>
    intro hnd p q hp hq hpq
    have hhead : a.1 ∉ as.map Prod.fst := (List.nodup_cons.mp (by simpa using hnd)).1
    have htail : (as.map Prod.fst).Nodup := (List.nodup_cons.mp (by simpa using hnd)).2
    rcases List.mem_cons.mp hp with h1 | h1 <;> rcases List.mem_cons.mp hq with h2 | h2
    · rw [h1, h2]
    · exact absurd (List.mem_map.mpr ⟨q, h2, (hpq.symm.trans (by rw [h1]))⟩) hhead
    · exact absurd (List.mem_map.mpr ⟨p, h1, (hpq.trans (by rw [h2]))⟩) hhead
    · exact ih htail p q h1 h2 hpq

theorem get_eq_some_iff_mem (r : Ranks) (hnd : r.keys.Nodup) (v : NodeIndex)
    (x : Int) :
    r.get v = some x ↔ (v, x) ∈ r._inner := by
  constructor
  · intro h
    simp only [Ranks.get] at h
    obtain ⟨e, he, hex⟩ := Option.map_eq_some'.mp h
    have h1 := List.find?_some he
    simp only [beq_iff_eq] at h1
    have h2 : e = (v, x) := by
      rw [Prod.ext_iff]
      exact ⟨h1, hex⟩
    exact h2 ▸ List.mem_of_find?_eq_some he
  · intro h
    have hsome : (r._inner.find? (fun p => p.1 == v)).isSome = true :=
      List.find?_isSome.mpr ⟨(v, x), h, by simp⟩
    obtain ⟨e, he⟩ := Option.isSome_iff_exists.mp hsome
    have h1 := List.find?_some he
    simp only [beq_iff_eq] at h1
    have h2 : (v, x) = e :=
      eq_of_mem_of_nodup_keys r._inner hnd (v, x) e h
        (List.mem_of_find?_eq_some he) (by rw [h1])
    simp only [Ranks.get, he, ← h2, Option.map_some']

/-! ### Helper lemma about the construction-time validity check -/

theorem is_valid_iff (ranks : List (NodeIndex × Int)) (graph : List NodeIndex) :
    is_valid ranks graph = true ↔ ∀ v ∈ graph, v ∈ ranks.map Prod.fst := by
  unfold Ranks.is_valid
  simp only [List.all_eq_true, List.any_eq_true, List.mem_map, beq_iff_eq]

end Ranks

/-! ### Claim theorems -/

/-- Claim C1, counterexample: the claim states that construction fails for
every mapping whose key set is not exactly the graph's vertex set, in
particular when a foreign key is present. But `Ranks::is_valid` only checks
that every graph vertex is a key: the mapping `{0 ↦ 0, 1 ↦ 5}` over the
one-vertex graph `{0}` has the foreign key `1`, yet construction
succeeds. -/
theorem new_accepts_superset_mapping :
    (Ranks.new [(0, 0), (1, 5)] [0] 1).isSome = true ∧
      (1 : NodeIndex) ∈ ([(0, 0), (1, 5)] : List (NodeIndex × Int)).map Prod.fst ∧
      (1 : NodeIndex) ∉ ([0] : List NodeIndex) := by
  decide

/-- Claim C1, amended: constructing a Rank Store via `Ranks::new` succeeds
if and only if every vertex of the graph is a key of the supplied mapping
(the key set is a superset of the vertex set); a graph vertex missing from
the mapping makes construction fail, while foreign keys are accepted. -/
theorem new_isSome_iff_graph_subset_keys (ranks : List (NodeIndex × Int))
    (graph : List NodeIndex) (minimum_length : Nat) :
    (Ranks.new ranks graph minimum_length).isSome = true ↔
      ∀ v ∈ graph, v ∈ ranks.map Prod.fst := by
  rw [← Ranks.is_valid_iff]
  unfold Ranks.new
  by_cases h : Ranks.is_valid ranks graph <;> simp [h]

/-- Claim C6: for every Rank Store and every pair of vertices `tail`,
`head` present in the mapping, `slack tail head` returns exactly
`rank(head) - rank(tail) - minimum_length`. -/
theorem slack_spec (r : Ranks) (tail head : NodeIndex) (rt rh : Int)
    (ht : r.get tail = some rt) (hh : r.get head = some rh) :
    r.slack tail head = some (rh - rt - (r.minimum_length : Int)) := by
  unfold Ranks.slack
  rw [ht, hh]

/-- Witness for C6 at the concrete store `{0 ↦ 0, 1 ↦ 3}` with minimum
length 1: the slack of the edge 0 → 1 is 3 - 0 - 1 = 2. -/
theorem slack_spec_witness :
    Ranks.slack ⟨[(0, 0), (1, 3)], 1⟩ 0 1 = some 2 := by
  have h := slack_spec ⟨[(0, 0), (1, 3)], 1⟩ 0 1 0 3 rfl rfl
  simpa using h

/-- Claim C7: `slack` fails (panics, modelled as `none`) exactly when one
of the two queried vertices is absent from the mapping, and the indexed
lookup fails exactly when its vertex is absent; under presence of the
queried vertices both always return a value. -/
theorem slack_index_isSome_iff (r : Ranks) (tail head v : NodeIndex) :
    ((r.slack tail head).isSome = true ↔ tail ∈ r.keys ∧ head ∈ r.keys) ∧
      ((r.index v).isSome = true ↔ v ∈ r.keys) := by
  constructor
  · rw [← Ranks.get_isSome_iff r tail, ← Ranks.get_isSome_iff r head]
    unfold Ranks.slack
    cases hh : r.get head <;> cases ht : r.get tail <;> simp
  · rw [← Ranks.get_isSome_iff r v]
    rfl

/-- Claim C8: `update vertex delta` adds `delta` to the stored rank of
`vertex` when it is present (leaving every other vertex's rank unchanged),
and is a complete no-op — the store is unchanged, nothing is inserted —
when `vertex` is absent. -/
theorem update_spec (r : Ranks) (vertex : NodeIndex) (delta : Int) :
    (∀ x, r.get vertex = some x →
        (r.update vertex delta).get vertex = some (x + delta)) ∧
      (∀ u, u ≠ vertex → (r.update vertex delta).get u = r.get u) ∧
      (r.get vertex = none → r.update vertex delta = r) :=
  ⟨fun x hx => Ranks.get_update_self r vertex delta x hx,
   fun u hu => Ranks.get_update_ne r vertex u delta hu,
   fun h => Ranks.update_absent_eq r vertex delta h⟩

/-- Witness for C8 at the concrete store `{0 ↦ 1}`: updating the present
vertex 0 by 2 yields rank 3 and leaves vertex 5 alone; updating the absent
vertex 7 leaves the store unchanged. -/
theorem update_spec_witness :
    (Ranks.update ⟨[(0, 1)], 1⟩ 0 2).get 0 = some 3 ∧
      (Ranks.update ⟨[(0, 1)], 1⟩ 0 2).get 5 = Ranks.get ⟨[(0, 1)], 1⟩ 5 ∧
      Ranks.update ⟨[(0, 1)], 1⟩ 7 2 = ⟨[(0, 1)], 1⟩ := by
  refine ⟨?_, ?_, ?_⟩
  · have h := (update_spec ⟨[(0, 1)], 1⟩ 0 2).1 1 rfl
    simpa using h
  · exact (update_spec ⟨[(0, 1)], 1⟩ 0 2).2.1 5 (by decide)
  · exact (update_spec ⟨[(0, 1)], 1⟩ 7 2).2.2 rfl

/-- Claim C9: the key set of the mapping is invariant under every mutating
operation — `update`, `tighten_edge`, and (whenever it succeeds)
`normalize` leave the key set exactly as it was; no key is added or
removed. -/
theorem keyset_invariant (r r' : Ranks) (vertex : NodeIndex) (delta : Int)
    (tree : TightTreeDFSs) :
    (r.update vertex delta).keys = r.keys ∧
      (r.tighten_edge tree delta).keys = r.keys ∧
      (r.normalize = some r' → r'.keys = r.keys) :=
  ⟨Ranks.keys_update r vertex delta,
   Ranks.keys_tighten_edge r tree delta,
   fun h => Ranks.keys_normalize r r' h⟩

/-- Witness for C9 at the concrete store `{0 ↦ 2}` and the one-vertex tree
`{0}`: `update`, `tighten_edge` and `normalize` (which yields `{0 ↦ 0}`)
all keep the key set `[0]`. -/
theorem keyset_invariant_witness :
    (Ranks.update ⟨[(0, 2)], 1⟩ 0 1).keys = Ranks.keys ⟨[(0, 2)], 1⟩ ∧
      (Ranks.tighten_edge ⟨[(0, 2)], 1⟩ ⟨[0], by decide⟩ 1).keys =
        Ranks.keys ⟨[(0, 2)], 1⟩ ∧
      Ranks.keys ⟨[(0, 0)], 1⟩ = Ranks.keys ⟨[(0, 2)], 1⟩ := by
  obtain ⟨h1, h2, h3⟩ :=
    keyset_invariant ⟨[(0, 2)], 1⟩ ⟨[(0, 0)], 1⟩ 0 1 ⟨[0], by decide⟩
  exact ⟨h1, h2, h3 (by decide)⟩

/-- Claim C10: on a store whose mapping is empty, `normalize` panics
(modelled as `none`) — taking the minimum of the empty collection and
unwrapping — instead of being a no-op, and `into_layers`, which first
calls `normalize` defensively, fails as well. -/
theorem empty_store_normalize_and_into_layers_fail (r : Ranks)
    (h : r._inner = []) :
    r.normalize = none ∧ r.into_layers = none :=
  ⟨Ranks.normalize_empty r h, Ranks.into_layers_empty r h⟩

/-- Witness for C10 at the concrete empty store with minimum length 1. -/
theorem empty_store_normalize_and_into_layers_fail_witness :
    Ranks.normalize ⟨[], 1⟩ = none ∧ Ranks.into_layers ⟨[], 1⟩ = none :=
  empty_store_normalize_and_into_layers_fail ⟨[], 1⟩ rfl

/-- Claim C4: on a non-empty store `normalize` succeeds, and whenever the
old minimum rank is `m` and the result is `r'`, the minimum rank of `r'`
is exactly 0 and every vertex's new rank is its old rank minus `m`. -/
theorem normalize_spec (r : Ranks) (h : r._inner ≠ []) :
    (r.normalize).isSome = true ∧
      ∀ m r', Ranks.listMin (r._inner.map Prod.snd) = some m →
        r.normalize = some r' →
        Ranks.listMin (r'._inner.map Prod.snd) = some 0 ∧
          ∀ v x, r.get v = some x → r'.get v = some (x - m) := by
  obtain ⟨m, r', h1, h2, _, _, h5, h6⟩ := Ranks.normalize_aux r h
  refine ⟨by rw [h2]; rfl, ?_⟩
  intro m0 r0 hm0 hr0
  rw [h1] at hm0
  injection hm0 with hm0
  rw [h2] at hr0
  injection hr0 with hr0
  subst hm0
  subst hr0
  exact ⟨h5, h6⟩

/-- Witness for C4 at the concrete store `{0 ↦ 2, 1 ↦ 5}`: the old
minimum is 2, `normalize` yields `{0 ↦ 0, 1 ↦ 3}`, whose minimum is 0,
and vertex 1 moves from rank 5 to rank 5 - 2. -/
theorem normalize_spec_witness :
    (Ranks.normalize ⟨[(0, 2), (1, 5)], 1⟩).isSome = true ∧
      Ranks.listMin ((⟨[(0, 0), (1, 3)], 1⟩ : Ranks)._inner.map Prod.snd) = some 0 ∧
      Ranks.get ⟨[(0, 0), (1, 3)], 1⟩ 1 = some (5 - 2) := by
  have h := normalize_spec ⟨[(0, 2), (1, 5)], 1⟩ (by decide)
  have h2 := h.2 2 ⟨[(0, 0), (1, 3)], 1⟩ (by decide) (by decide)
  exact ⟨h.1, h2.1, h2.2 1 5 (by decide)⟩

/-- Claim C5: `normalize` is idempotent — when a call succeeds and
produces `r'`, a second call succeeds and returns `r'` itself, leaving the
rank mapping untouched. -/
theorem normalize_idempotent (r r' : Ranks) (h : r.normalize = some r') :
    r'.normalize = some r' := by
  have hne : r._inner ≠ [] := by
    intro h0
    rw [Ranks.normalize_empty r h0] at h
    cases h
  obtain ⟨m, r'', _, h2, _, _, h5, _⟩ := Ranks.normalize_aux r hne
  rw [h2] at h
  injection h with h
  subst h
  obtain ⟨inner', ml'⟩ := r''
  unfold Ranks.normalize
  simp only at h5 ⊢
  rw [h5]
  simp only [Option.some.injEq, Ranks.mk.injEq, and_true]
  calc inner'.map (fun p => (p.1, p.2 - 0)) = inner'.map id :=
        List.map_congr_left (fun p _ => by simp)
    _ = inner' := List.map_id inner'

/-- Witness for C5: normalizing `{0 ↦ 2, 1 ↦ 5}` gives `{0 ↦ 0, 1 ↦ 3}`,
and normalizing that again returns it unchanged. -/
theorem normalize_idempotent_witness :
    Ranks.normalize ⟨[(0, 0), (1, 3)], 1⟩ = some ⟨[(0, 0), (1, 3)], 1⟩ :=
  normalize_idempotent ⟨[(0, 2), (1, 5)], 1⟩ ⟨[(0, 0), (1, 3)], 1⟩ (by decide)

/-- Claim C2: `tighten_edge tree delta` shifts every tree vertex by the
same `delta`, so for any two vertices `u`, `v` of the tree that are
present in the store, both are still present afterwards and the
difference of their ranks is exactly what it was before the shift. -/
theorem tighten_edge_preserves_rank_differences (r : Ranks)
    (tree : TightTreeDFSs) (delta : Int) (u v : NodeIndex) (ru rv : Int)
    (hu : u ∈ tree.vertices) (hv : v ∈ tree.vertices)
    (hru : r.get u = some ru) (hrv : r.get v = some rv) :
    ((r.tighten_edge tree delta).get u).isSome = true ∧
      ((r.tighten_edge tree delta).get v).isSome = true ∧
      ∀ ru' rv', (r.tighten_edge tree delta).get u = some ru' →
        (r.tighten_edge tree delta).get v = some rv' →
        ru' - rv' = ru - rv := by
  have h1 : (r.tighten_edge tree delta).get u = some (ru + delta) :=
    Ranks.get_foldl_update_mem tree.vertices delta u tree.nodup hu r ru hru
  have h2 : (r.tighten_edge tree delta).get v = some (rv + delta) :=
    Ranks.get_foldl_update_mem tree.vertices delta v tree.nodup hv r rv hrv
  refine ⟨by rw [h1]; rfl, by rw [h2]; rfl, ?_⟩
  intro ru' rv' hru' hrv'
  rw [h1] at hru'
  injection hru' with hru'
  rw [h2] at hrv'
  injection hrv' with hrv'
  subst hru'
  subst hrv'
  ring

/-- Witness for C2: shifting the tree `{0, 1}` of the store
`{0 ↦ 2, 1 ↦ 5}` by 3 keeps both vertices present (ranks 5 and 8) and
their difference is still 2 - 5. -/
theorem tighten_edge_preserves_rank_differences_witness :
    ((Ranks.tighten_edge ⟨[(0, 2), (1, 5)], 1⟩ ⟨[0, 1], by decide⟩ 3).get 0).isSome
        = true ∧
      ((Ranks.tighten_edge ⟨[(0, 2), (1, 5)], 1⟩ ⟨[0, 1], by decide⟩ 3).get 1).isSome
        = true ∧
      (5 : Int) - 8 = 2 - 5 := by
  obtain ⟨h1, h2, h3⟩ := tighten_edge_preserves_rank_differences
    ⟨[(0, 2), (1, 5)], 1⟩ ⟨[0, 1], by decide⟩ 3 0 1 2 5
    (by decide) (by decide) rfl rfl
  exact ⟨h1, h2, h3 5 8 (by decide) (by decide)⟩

/-- Claim C3: on a non-empty store, `into_layers` succeeds (normalizing
defensively first, so the caller need not have normalized), and the group
sequence `L` it produces satisfies: group `i` contains exactly the
vertices whose normalized rank is `i` (indices beyond the sequence hold no
vertex), each group lists its vertices once, every vertex of the store
lies in exactly one group, and the sequence is dense — an index is
present exactly when some vertex has normalized rank at least that index,
so ranks with no vertices still yield a present (empty) group. -/
theorem into_layers_spec (r : Ranks) (h : r._inner ≠ []) (hnd : r.keys.Nodup) :
    (r.into_layers).isSome = true ∧
      ∀ (r' : Ranks) (L : List (List NodeIndex)),
        r.normalize = some r' → r.into_layers = some ⟨L⟩ →
        (∀ (i : Nat) (v : NodeIndex), v ∈ L.getD i [] ↔ r'.get v = some (i : Int)) ∧
          (∀ i : Nat, (L.getD i []).Nodup) ∧
          (∀ v ∈ r.keys, ∃! i : Nat, v ∈ L.getD i []) ∧
          (∀ i : Nat, i < L.length ↔
            ∃ (v : NodeIndex) (x : Int), r'.get v = some x ∧ (i : Int) ≤ x) := by
  obtain ⟨m, r0, h1, h2, h3, h4, h5, h6⟩ := Ranks.normalize_aux r h
  have hil : r.into_layers =
      some ⟨r0._inner.foldl (fun layers p => Ranks.pushAt layers p.2.toNat p.1) []⟩ := by
    unfold Ranks.into_layers
    rw [h2]
  refine ⟨by rw [hil]; rfl, ?_⟩
  intro r' L hn hL
  rw [h2] at hn
  injection hn with hn
  subst hn
  rw [hil] at hL
  injection hL with hL
  injection hL with hL
  subst hL
  have hkeys : r0.keys = r.keys := Ranks.keys_normalize r r0 h2
  have hnd0 : r0.keys.Nodup := by rw [hkeys]; exact hnd
  have hpos : ∀ p ∈ r0._inner, 0 ≤ p.2 := fun p hp =>
    Ranks.listMin_le _ 0 h5 p.2 (List.mem_map.mpr ⟨p, hp, rfl⟩)
  have hA : ∀ (i : Nat) (v : NodeIndex),
      v ∈ (r0._inner.foldl (fun layers p => Ranks.pushAt layers p.2.toNat p.1)
        []).getD i [] ↔ r0.get v = some (i : Int) := by
    intro i v
    rw [Ranks.mem_getD_foldl_pushAt r0._inner [] i v]
    simp only [List.getD_nil, List.not_mem_nil, false_or]
    constructor
    · rintro ⟨x, hx, hxi⟩
      have hxpos : 0 ≤ x := hpos (v, x) hx
      have hxeq : x = (i : Int) := by omega
      rw [← hxeq]
      exact (Ranks.get_eq_some_iff_mem r0 hnd0 v x).mpr hx
    · intro hget
      exact ⟨(i : Int), (Ranks.get_eq_some_iff_mem r0 hnd0 v (i : Int)).mp hget,
        Int.toNat_natCast i⟩
  have hB : ∀ i : Nat,
      ((r0._inner.foldl (fun layers p => Ranks.pushAt layers p.2.toNat p.1)
        []).getD i []).Nodup := by
    refine Ranks.nodup_getD_foldl_pushAt r0._inner [] hnd0 ?_ ?_
    · intro j
      simp
    · intro j w hw
      simp at hw
  have hC : ∀ v ∈ r.keys, ∃! i : Nat,
      v ∈ (r0._inner.foldl (fun layers p => Ranks.pushAt layers p.2.toNat p.1)
        []).getD i [] := by
    intro v hv
    have hv0 : v ∈ r0.keys := by rw [hkeys]; exact hv
    obtain ⟨x, hx⟩ := Option.isSome_iff_exists.mp ((Ranks.get_isSome_iff r0 v).mpr hv0)
    have hxpos : 0 ≤ x :=
      hpos (v, x) ((Ranks.get_eq_some_iff_mem r0 hnd0 v x).mp hx)
    refine ⟨x.toNat, ?_, ?_⟩
    · exact (hA x.toNat v).mpr (by rw [Int.toNat_of_nonneg hxpos]; exact hx)
    · intro j hj
      have hj2 := (hA j v).mp hj
      rw [hx] at hj2
      injection hj2 with hj2
      omega
  have hD : ∀ i : Nat,
      i < (r0._inner.foldl (fun layers p => Ranks.pushAt layers p.2.toNat p.1)
        []).length ↔
        ∃ (v : NodeIndex) (x : Int), r0.get v = some x ∧ (i : Int) ≤ x := by
    intro i
    rw [Ranks.lt_length_foldl_pushAt r0._inner [] i]
    simp only [List.length_nil, Nat.not_lt_zero, false_or]
    constructor
    · rintro ⟨p, hp, hip⟩
      have hppos : 0 ≤ p.2 := hpos p hp
      refine ⟨p.1, p.2, (Ranks.get_eq_some_iff_mem r0 hnd0 p.1 p.2).mpr
        (by rw [Prod.mk.eta]; exact hp), by omega⟩
    · rintro ⟨v, x, hvx, hix⟩
      have hmem := (Ranks.get_eq_some_iff_mem r0 hnd0 v x).mp hvx
      exact ⟨(v, x), hmem, by omega⟩
  exact ⟨hA, hB, hC, hD⟩

/-- Witness for C3 at the concrete non-normalized store
`{0 ↦ 2, 1 ↦ 1}`: `into_layers` succeeds (defensively normalizing to
`{0 ↦ 1, 1 ↦ 0}`), producing the groups `[[1], [0]]`; vertex 0 lies in
group 1 and group 0 has no duplicates. -/
theorem into_layers_spec_witness :
    (Ranks.into_layers ⟨[(0, 2), (1, 1)], 1⟩).isSome = true ∧
      (0 : NodeIndex) ∈ ([[1], [0]] : List (List NodeIndex)).getD 1 [] ∧
      (([[1], [0]] : List (List NodeIndex)).getD 0 []).Nodup := by
  obtain ⟨h1, h2⟩ := into_layers_spec ⟨[(0, 2), (1, 1)], 1⟩ (by decide) (by decide)
  obtain ⟨hA, hB, -, -⟩ :=
    h2 ⟨[(0, 1), (1, 0)], 1⟩ [[1], [0]] (by decide) (by decide)
  exact ⟨h1, (hA 1 0).mpr (by decide), hB 0⟩

end RustSugiyama
